import Mathlib

/-!
Shallow embedding of `src/bitstream_converter.rs` from the reestream
repository: H.264 bitstream conversion between length-prefixed (AVCC)
framing and Annex-B framing, together with theorems checking the
specification's claims about it.

Bytes are modelled as `Nat` (Rust `u8` values are < 256; hypotheses state
this wherever the arithmetic depends on it).  The Rust `u32` arithmetic in
`NalUnit::from_stream` and the `as u32` cast in
`convert_annexb_to_length_prefixed` are modelled with explicit `% 2 ^ 32`.
Rust `panic!`s are modelled as `Option.none` or (where the panicking arm is
unreachable under the configuration invariants) a default value, as noted at
each definition.
-/

/-- NAL unit type, one variant per 5-bit header code (`enum NalType`). -/
inductive NalType where
  | Unspecified
  | Slice
  | Dpa
  | Dpb
  | Dpc
  | IdrSlice
  | Sei
  | Sps
  | Pps
  | Aud
  | EndSequence
  | EndStream
  | FillerData
  | SpsExt
  | Prefix
  | SubSps
  | Dps
  | Reserved17
  | Reserved18
  | AuxiliarySlice
  | ExtenSlice
  | DepthExtenSlice
  | Reserved22
  | Reserved23
  | Unspecified24
  | Unspecified25
  | Unspecified26
  | Unspecified27
  | Unspecified28
  | Unspecified29
  | Unspecified30
  | Unspecified31
  deriving DecidableEq

/-- `impl From<u8> for NalType`.  The source `panic!`s on values ≥ 32
(`_ => panic!("Invalid NAL type: ...")`); the panic is modelled as `none`. -/
def NalType.from_u8 : Nat → Option NalType
  | 0 => some Unspecified
  | 1 => some Slice
  | 2 => some Dpa
  | 3 => some Dpb
  | 4 => some Dpc
  | 5 => some IdrSlice
  | 6 => some Sei
  | 7 => some Sps
  | 8 => some Pps
  | 9 => some Aud
  | 10 => some EndSequence
  | 11 => some EndStream
  | 12 => some FillerData
  | 13 => some SpsExt
  | 14 => some Prefix
  | 15 => some SubSps
  | 16 => some Dps
  | 17 => some Reserved17
  | 18 => some Reserved18
  | 19 => some AuxiliarySlice
  | 20 => some ExtenSlice
  | 21 => some DepthExtenSlice
  | 22 => some Reserved22
  | 23 => some Reserved23
  | 24 => some Unspecified24
  | 25 => some Unspecified25
  | 26 => some Unspecified26
  | 27 => some Unspecified27
  | 28 => some Unspecified28
  | 29 => some Unspecified29
  | 30 => some Unspecified30
  | 31 => some Unspecified31
  | _ => none

/-- Header-byte classification as performed at every call site of the source:
`NalType::from(byte & 0x1F)`.  The mask keeps the argument below 32, so the
panicking arm of `from_u8` is unreachable here (`classify_isSome` below); the
`getD` default is never used. -/
def classify (b : Nat) : NalType :=
  (NalType.from_u8 (b &&& 31)).getD NalType.Unspecified

/-- A NAL unit: kind plus payload bytes (`struct NalUnit`; the borrowed byte
view is modelled as the byte list itself). -/
structure NalUnit where
  nal_type : NalType
  bytes : List Nat
  deriving DecidableEq

/-- The length-prefix accumulation loop in `NalUnit::from_stream`:
`nal_size = (nal_size << 8) | u32::from(stream[0])` over `length_size`
bytes, in `u32` arithmetic.  The empty-stream arm is unreachable because the
caller checks `stream.len() < length_size` first. -/
def readSizeLoop : Nat → Nat → List Nat → Nat × List Nat
  | 0, acc, s => (acc, s)
  | _ + 1, acc, [] => (acc, [])
  | n + 1, acc, b :: s => readSizeLoop n ((acc <<< 8) % 2 ^ 32 ||| b) s

/-- `NalUnit::from_stream`: reads one length-prefixed unit, returning it and
the remaining stream. -/
def NalUnit.from_stream (stream : List Nat) (length_size : Nat) :
    Option (NalUnit × List Nat) :=
  if stream.length < length_size then none
  else
    let r := readSizeLoop length_size 0 stream
    let nal_size := r.1
    let rest := r.2
    if nal_size = 0 ∨ rest.length < nal_size then none
    else
      let packet := rest.take nal_size
      some (⟨classify (packet.headD 0), packet⟩, rest.drop nal_size)

/-- Result of AVCC configuration-record parsing (`struct AvccInfo`). -/
structure AvccInfo where
  sps : List (List Nat)
  pps : List (List Nat)
  length_size : Nat
  deriving DecidableEq

/-- `Cursor::read_u8`: one byte off the front. -/
def readU8 : List Nat → Option (Nat × List Nat)
  | [] => none
  | b :: s => some (b, s)

/-- `Cursor::read_u16::<BigEndian>`: big-endian value of two `u8`s. -/
def readU16BE : List Nat → Option (Nat × List Nat)
  | a :: b :: s => some (a * 256 + b, s)
  | _ => none

/-- `read_exact` into a buffer of `n` bytes. -/
def readExact (n : Nat) (s : List Nat) : Option (List Nat × List Nat) :=
  if n ≤ s.length then some (s.take n, s.drop n) else none

/-- The parameter-set reading loop of `AvccInfo::from_avcc`: `num` entries,
each a 2-byte big-endian length followed by that many payload bytes; entries
of declared length zero are consumed but not stored (`continue`). -/
def readPsList : Nat → List Nat → Option (List (List Nat) × List Nat)
  | 0, s => some ([], s)
  | n + 1, s => do
    let (len, s1) ← readU16BE s
    if len = 0 then
      readPsList n s1
    else do
      let (payload, s2) ← readExact len s1
      let (rest, s3) ← readPsList n s2
      some (payload :: rest, s3)

/-- The cursor-reading body of `AvccInfo::from_avcc` after the length check:
four ignored header bytes, the width byte (low 2 bits, plus one), the SPS
count byte (low 5 bits), the SPS entries, the PPS count byte (all 8 bits),
the PPS entries. -/
def parseAvccBody (avcc : List Nat) : Option AvccInfo := do
  let (_version, s) ← readU8 avcc
  let (_profile, s) ← readU8 s
  let (_compat, s) ← readU8 s
  let (_level, s) ← readU8 s
  let (lsb, s) ← readU8 s
  let length_size := (lsb &&& 3) + 1
  let (nspsb, s) ← readU8 s
  let (sps_list, s) ← readPsList (nspsb &&& 31) s
  let (npps, s) ← readU8 s
  let (pps_list, _rest) ← readPsList npps s
  some ⟨sps_list, pps_list, length_size⟩

/-- `AvccInfo::from_avcc`.  A record shorter than 7 bytes is the dedicated
"AVCC too short" error; every cursor read failure afterwards surfaces as an
error as well (the distinct io error messages are collapsed into one). -/
def AvccInfo.from_avcc (avcc : List Nat) : Except String AvccInfo :=
  if avcc.length < 7 then .error "AVCC too short"
  else
    match parseAvccBody avcc with
    | some info => .ok info
    | none => .error "AVCC read error"

/-- Converter state (`struct BitstreamConverter`). -/
structure BitstreamConverter where
  length_size : Nat
  sps : List (List Nat)
  pps : List (List Nat)
  new_idr : Bool
  sps_seen : Bool
  pps_seen : Bool
  deriving DecidableEq

/-- `BitstreamConverter::from_avcc`. -/
def BitstreamConverter.from_avcc (info : AvccInfo) : BitstreamConverter :=
  ⟨info.length_size, info.sps, info.pps, true, false, false⟩

/-- `BitstreamConverter::update_avcc`: replaces width and parameter sets and
resets all three flags. -/
def BitstreamConverter.update_avcc (_s : BitstreamConverter) (info : AvccInfo) :
    BitstreamConverter :=
  ⟨info.length_size, info.sps, info.pps, true, false, false⟩

/-- The 4-byte Annex-B start code `00 00 00 01`. -/
def startCode : List Nat := [0, 0, 0, 1]

/-- Each payload of `ps` preceded by a 4-byte start code: the shape of the
SPS/PPS insertion loops and of the Annex-B output as a whole. -/
def annexB (ps : List (List Nat)) : List Nat :=
  ps.flatMap fun p => startCode ++ p

/-- The resynchronisation step at the top of the `IdrSlice` arm of
`convert_packet`: a set first-macroblock bit (`bytes[1] & 0x80`) on an IDR
slice while `new_idr` is off re-arms `new_idr`.  The read of byte offset 1
is guarded by the payload-length check `bytes.len() > 1`. -/
def idrResync (s : BitstreamConverter) (u : NalUnit) : BitstreamConverter :=
  if !s.new_idr && decide (1 < u.bytes.length) && decide (u.bytes.getD 1 0 &&& 128 ≠ 0)
  then { s with new_idr := true } else s

/-- The body of the `while` loop of `convert_packet` for one unit: flag
updates, the optional SPS/PPS insertion, the unconditional emission of the
unit behind a start code, and the flag reset after a non-IDR slice.  Returns
the updated state and the bytes appended to `out`. -/
def processUnit (s : BitstreamConverter) (u : NalUnit) :
    BitstreamConverter × List Nat :=
  let step :=
    match u.nal_type with
    | NalType.Sps => ({ s with sps_seen := true }, ([] : List Nat))
    | NalType.Pps => ({ s with pps_seen := true }, [])
    | NalType.IdrSlice =>
      let s1 := idrResync s u
      if s1.new_idr && !s1.sps_seen && !s1.pps_seen then
        ({ s1 with new_idr := false }, annexB s1.sps ++ annexB s1.pps)
      else if s1.new_idr && s1.sps_seen && !s1.pps_seen then
        ({ s1 with new_idr := false }, annexB s1.pps)
      else (s1, [])
    | _ => (s, [])
  let s2 := step.1
  let out := step.2 ++ startCode ++ u.bytes
  if !s2.new_idr && u.nal_type == NalType.Slice then
    ({ s2 with new_idr := true, sps_seen := false, pps_seen := false }, out)
  else (s2, out)

/-- Fuel-indexed form of the `while` loop of `convert_packet`.  Each
iteration consumes at least one byte of `stream`, so any fuel above
`stream.length` computes the loop's fixpoint (`convertLoopAux_congr`). -/
def convertLoopAux : Nat → BitstreamConverter → List Nat → List Nat →
    BitstreamConverter × List Nat
  | 0, s, _, out => (s, out)
  | fuel + 1, s, stream, out =>
    if stream = [] then (s, out)
    else
      match NalUnit.from_stream stream s.length_size with
      | none => (s, out)
      | some (u, rest) =>
        let r := processUnit s u
        convertLoopAux fuel r.1 rest (out ++ r.2)

/-- `BitstreamConverter::convert_packet`.  The caller-supplied `out` vector
is cleared on entry, so the conversion result is returned as a fresh list
together with the updated state. -/
def BitstreamConverter.convert_packet (s : BitstreamConverter)
    (packet : List Nat) : BitstreamConverter × List Nat :=
  convertLoopAux (packet.length + 1) s packet []

/-- The start-code test at position `i` in
`convert_annexb_to_length_prefixed`: the 4-byte pattern is tried first, then
the 3-byte pattern. -/
def startCodeLen (a : List Nat) (i : Nat) : Option Nat :=
  if i + 3 < a.length ∧ (a.drop i).take 4 = [0, 0, 0, 1] then some 4
  else if i + 2 < a.length ∧ (a.drop i).take 3 = [0, 0, 1] then some 3
  else none

/-- The condition of the inner scan of `convert_annexb_to_length_prefixed`
that searches for the next start code. -/
def isStartAt (a : List Nat) (j : Nat) : Bool :=
  decide (j + 3 < a.length) &&
    ((a.drop j).take 4 == [0, 0, 0, 1] || (a.drop j).take 3 == [0, 0, 1])

/-- Fuel-indexed inner scan (`let mut j = i; while j < annexb.len() ...`). -/
def findNextAux (a : List Nat) : Nat → Nat → Nat
  | 0, j => j
  | fuel + 1, j =>
    if j < a.length then
      (if isStartAt a j then j else findNextAux a fuel (j + 1))
    else j

/-- Position of the next start code at or after `j` (or `a.length`). -/
def findNext (a : List Nat) (j : Nat) : Nat :=
  findNextAux a (a.length + 1) j

/-- The length-prefix emission of `convert_annexb_to_length_prefixed`:
`nal_len = nal.len() as u32`, then `length_size` bytes, big-endian, each
`(nal_len >> 8k) as u8`.  The source `panic!`s on a width outside 1–4; that
arm, unreachable under the configuration invariant, is modelled as `[]`. -/
def writeLen (length_size : Nat) (len : Nat) : List Nat :=
  let n := len % 2 ^ 32
  match length_size with
  | 1 => [n % 256]
  | 2 => [n / 2 ^ 8 % 256, n % 256]
  | 3 => [n / 2 ^ 16 % 256, n / 2 ^ 8 % 256, n % 256]
  | 4 => [n / 2 ^ 24 % 256, n / 2 ^ 16 % 256, n / 2 ^ 8 % 256, n % 256]
  | _ => []

/-- The `matches!` filter of `convert_annexb_to_length_prefixed`: parameter
sets, access-unit delimiters and SEI units are dropped. -/
def discardNal (nt : NalType) : Bool :=
  nt == NalType.Sps || nt == NalType.Pps || nt == NalType.Aud || nt == NalType.Sei

/-- Fuel-indexed outer loop of `convert_annexb_to_length_prefixed`.  Each
iteration advances `i` by at least one, so any fuel above `a.length`
computes the loop's fixpoint (`convBackAux_congr`). -/
def convBackAux (a : List Nat) (length_size : Nat) : Nat → Nat → List Nat
  | 0, _ => []
  | fuel + 1, i =>
    if i < a.length then
      match startCodeLen a i with
      | none => convBackAux a length_size fuel (i + 1)
      | some scl =>
        let start := i + scl
        let j := findNext a start
        if a.length ≤ start then []
        else
          let nal := (a.drop start).take (j - start)
          if nal = [] then convBackAux a length_size fuel j
          else if discardNal (classify (nal.headD 0)) then
            convBackAux a length_size fuel j
          else
            writeLen length_size nal.length ++ nal ++ convBackAux a length_size fuel j
    else []

/-- `convert_annexb_to_length_prefixed`. -/
def convert_annexb_to_length_prefixed (a : List Nat) (length_size : Nat) :
    List Nat :=
  convBackAux a length_size (a.length + 1) 0

/-! ### Specification-side definitions

These are not translations of source functions; they give names to the byte
formats the claims speak about, for comparison with the source functions
above. -/

/-- Big-endian value of a byte list. -/
def beVal (bs : List Nat) : Nat :=
  bs.foldl (fun a b => a * 256 + b) 0

/-- Canonical big-endian encoding of `m` in `k` bytes (value mod `256^k`). -/
def beBytes : Nat → Nat → List Nat
  | 0, _ => []
  | k + 1, m => m / 256 ^ k % 256 :: beBytes k (m % 256 ^ k)

/-- Length-prefixed framing of raw payloads with width `w`: the container
format consumed by `convert_packet`. -/
def encodePayloads (w : Nat) (ps : List (List Nat)) : List Nat :=
  ps.flatMap fun p => beBytes w p.length ++ p

/-- Fuel-indexed repeated application of the unit reader. -/
def parseUnitsAux (w : Nat) : Nat → List Nat → List NalUnit
  | 0, _ => []
  | fuel + 1, stream =>
    match NalUnit.from_stream stream w with
    | none => []
    | some (u, rest) => u :: parseUnitsAux w fuel rest

/-- The sequence of NAL units that `convert_packet` extracts from a packet:
repeated application of `NalUnit::from_stream` until it fails. -/
def parseUnits (stream : List Nat) (w : Nat) : List NalUnit :=
  parseUnitsAux w (stream.length + 1) stream

/-- Folding `processUnit` over a list of units, concatenating the output. -/
def processUnits (s : BitstreamConverter) :
    List NalUnit → BitstreamConverter × List Nat
  | [] => (s, [])
  | u :: us =>
    let r := processUnit s u
    let r2 := processUnits r.1 us
    (r2.1, r.2 ++ r2.2)

/-- The parameter-set payloads `convert_packet` inserts before unit `u` in
state `s` (empty unless `u` is an IDR slice meeting the insertion policy). -/
def insBlocks (s : BitstreamConverter) (u : NalUnit) : List (List Nat) :=
  match u.nal_type with
  | NalType.IdrSlice =>
    let s1 := idrResync s u
    if s1.new_idr && !s1.sps_seen && !s1.pps_seen then s1.sps ++ s1.pps
    else if s1.new_idr && s1.sps_seen && !s1.pps_seen then s1.pps
    else []
  | _ => []

/-- All payloads emitted (behind start codes) while processing `us` from
state `s`: inserted parameter sets interleaved with the units' own bytes. -/
def emittedBlocks (s : BitstreamConverter) : List NalUnit → List (List Nat)
  | [] => []
  | u :: us => insBlocks s u ++ ([u.bytes] ++ emittedBlocks (processUnit s u).1 us)

/-- Number of units in `us` whose conversion emits anything beyond the unit
itself behind its start code, i.e. before which parameter sets were
inserted. -/
def countInsertions (s : BitstreamConverter) : List NalUnit → Nat
  | [] => 0
  | u :: us =>
    (if (processUnit s u).2 = startCode ++ u.bytes then 0 else 1) +
      countInsertions (processUnit s u).1 us

/-- Units the inverse converter keeps (everything but SPS/PPS/AUD/SEI). -/
def keepU (u : NalUnit) : Bool :=
  !discardNal u.nal_type

/-- Length-prefixed framing of units with width `w` using the canonical
big-endian length field: "original framing" in the round-trip claim. -/
def encodeUnits (w : Nat) (us : List NalUnit) : List Nat :=
  us.flatMap fun u => beBytes w u.bytes.length ++ u.bytes

/-- Parameter-set list layout inside a configuration record: 2-byte
big-endian length, then the payload. -/
def encodePS (sets : List (List Nat)) : List Nat :=
  sets.flatMap fun p => beBytes 2 p.length ++ p

/-- A configuration record with the documented fixed layout: four ignored
header bytes, the width byte `w - 1`, the SPS count, the SPS entries, the
PPS count, the PPS entries. -/
def mkAvccRecord (v pr co le : Nat) (w : Nat) (sps pps : List (List Nat)) :
    List Nat :=
  [v, pr, co, le, w - 1, sps.length] ++ encodePS sps ++ [pps.length] ++ encodePS pps

/-- Absence of the 3-byte start-code pattern inside a payload: the condition
under which Annex-B framing of that payload can be parsed back (the source
performs no emulation-prevention escaping). -/
def cleanPayload (p : List Nat) : Prop :=
  ¬ List.IsInfix [0, 0, 1] p

/-- Decidability of `cleanPayload`, for evaluating concrete instances. -/
instance cleanPayloadDec (p : List Nat) : Decidable (cleanPayload p) := by
  unfold cleanPayload
  infer_instance

/-! ### Basic lemmas -/

theorem lor_eq_add {a b : Nat} (hb : b < 256) : a * 256 ||| b = a * 256 + b := by
  apply Nat.eq_of_testBit_eq
  intro i
  have h8 : (256 : Nat) = 2 ^ 8 := by norm_num
  rw [Nat.testBit_or, Nat.mul_comm a 256, h8,
    Nat.testBit_mul_pow_two_add a (show b < 2 ^ 8 by omega) i,
    Nat.testBit_mul_pow_two]
  by_cases h : i < 8
  · simp [h, Nat.not_le.mpr h]
  · have hbf : Nat.testBit b i = false := Nat.testBit_lt_two_pow (by
      have : (2 : Nat) ^ 8 ≤ 2 ^ i := Nat.pow_le_pow_right (by norm_num) (Nat.not_lt.mp h)
      omega)
    simp [h, Nat.not_lt.mp h, hbf]

theorem beVal_foldl (l : List Nat) : ∀ a : Nat,
    l.foldl (fun x b => x * 256 + b) a = a * 256 ^ l.length + beVal l := by
  induction l with
  | nil => intro a; simp [beVal]
  | cons c l ih =>
    intro a
    show l.foldl _ (a * 256 + c) = _
    rw [ih (a * 256 + c)]
    have hc : beVal (c :: l) = c * 256 ^ l.length + beVal l := by
      show l.foldl _ (0 * 256 + c) = _
      rw [ih (0 * 256 + c)]; ring_nf
    rw [hc]
    simp [List.length_cons, pow_succ]
    ring

theorem beVal_cons (b : Nat) (l : List Nat) :
    beVal (b :: l) = b * 256 ^ l.length + beVal l := by
  show l.foldl _ (0 * 256 + b) = _
  rw [beVal_foldl l (0 * 256 + b)]; ring_nf

theorem beVal_lt (bs : List Nat) (h : ∀ b ∈ bs, b < 256) :
    beVal bs < 256 ^ bs.length := by
  induction bs with
  | nil => simp [beVal]
  | cons b l ih =>
    rw [beVal_cons]
    have hb : b < 256 := h b (by simp)
    have hl : beVal l < 256 ^ l.length := ih (fun x hx => h x (by simp [hx]))
    have : b * 256 ^ l.length + beVal l < (b + 1) * 256 ^ l.length := by nlinarith
    calc b * 256 ^ l.length + beVal l < (b + 1) * 256 ^ l.length := this
    _ ≤ 256 * 256 ^ l.length := by
        have : b + 1 ≤ 256 := hb
        exact Nat.mul_le_mul_right _ this
    _ = 256 ^ (l.length + 1) := by rw [pow_succ]; ring
    _ = 256 ^ (b :: l).length := by simp

theorem beBytes_length (k m : Nat) : (beBytes k m).length = k := by
  induction k generalizing m with
  | zero => simp [beBytes]
  | succ k ih => simp [beBytes, ih]

theorem beBytes_lt (k m : Nat) : ∀ b ∈ beBytes k m, b < 256 := by
  induction k generalizing m with
  | zero => simp [beBytes]
  | succ k ih =>
    intro b hb
    simp only [beBytes, List.mem_cons] at hb
    rcases hb with h | h
    · subst h; exact Nat.mod_lt _ (by norm_num)
    · exact ih _ b h

theorem beVal_beBytes (k m : Nat) : beVal (beBytes k m) = m % 256 ^ k := by
  induction k generalizing m with
  | zero => simp [beBytes, beVal, Nat.mod_one]
  | succ k ih =>
    rw [beBytes, beVal_cons, beBytes_length, ih]
    have h1 : m % 256 ^ k % 256 ^ k = m % 256 ^ k :=
      Nat.mod_mod_of_dvd m (dvd_refl _)
    rw [h1]
    have h2 : (256 : Nat) ^ (k + 1) = 256 ^ k * 256 := by rw [pow_succ]
    rw [h2, Nat.mod_mul]
    ring

theorem readSizeLoop_spec : ∀ (k : Nat) (acc : Nat) (s : List Nat),
    k ≤ 4 → k ≤ s.length → (∀ b ∈ s.take k, b < 256) → acc < 256 ^ (4 - k) →
    readSizeLoop k acc s = (acc * 256 ^ k + beVal (s.take k), s.drop k) := by
  intro k
  induction k with
  | zero => intro acc s _ _ _ _; simp [readSizeLoop, beVal]
  | succ k ih =>
    intro acc s hk hlen hb hacc
    match s with
    | [] => simp at hlen
    | b :: s' =>
      have hb0 : b < 256 := hb b (by simp)
      have hs : (b :: s').take (k + 1) = b :: s'.take k := rfl
      have h4 : (256 : Nat) ^ (4 - k) = 256 ^ (4 - (k + 1)) * 256 := by
        rw [← pow_succ]
        congr 1
        omega
      have hmul : acc * 256 < 256 ^ (4 - k) := by
        rw [h4]
        exact mul_lt_mul_of_pos_right hacc (by norm_num)
      have hlt32 : acc * 256 < 2 ^ 32 := by
        have : (256 : Nat) ^ (4 - k) ≤ 256 ^ 4 := Nat.pow_le_pow_right (by norm_num) (by omega)
        have h4 : (256 : Nat) ^ 4 = 2 ^ 32 := by norm_num
        omega
      have hshift : (acc <<< 8) % 2 ^ 32 ||| b = acc * 256 + b := by
        rw [Nat.shiftLeft_eq]
        have h28 : (2 : Nat) ^ 8 = 256 := by norm_num
        rw [h28, Nat.mod_eq_of_lt hlt32, lor_eq_add hb0]
      show readSizeLoop k ((acc <<< 8) % 2 ^ 32 ||| b) s' = _
      rw [hshift]
      have hacc' : acc * 256 + b < 256 ^ (4 - k) := by
        rw [h4]
        rw [h4] at hmul
        omega
      rw [ih (acc * 256 + b) s' (by omega) (by simpa using hlen)
        (fun x hx => hb x (by rw [hs]; exact List.mem_cons_of_mem _ hx)) hacc']
      rw [hs, beVal_cons]
      have hlk : (s'.take k).length = k := by
        rw [List.length_take]
        have : k ≤ s'.length := by simpa using hlen
        omega
      rw [hlk]
      rw [List.drop_succ_cons]
      congr 1
      rw [pow_succ]
      ring

theorem head?_take {α : Type} {l : List α} {n : Nat} (hn : n ≠ 0) :
    (l.take n).head? = l.head? := by
  cases l with
  | nil => simp
  | cons x xs =>
    cases n with
    | zero => exact absurd rfl hn
    | succ m => simp

theorem fromStream_char (s : List Nat) (w : Nat) (hw : w ≤ 4)
    (hb : ∀ b ∈ s.take w, b < 256) :
    NalUnit.from_stream s w =
      if s.length < w then none
      else if beVal (s.take w) = 0 ∨ s.length - w < beVal (s.take w) then none
      else some (⟨classify ((s.drop w).headD 0), (s.drop w).take (beVal (s.take w))⟩,
        (s.drop w).drop (beVal (s.take w))) := by
  unfold NalUnit.from_stream
  by_cases h : s.length < w
  · simp [h]
  · have hws : w ≤ s.length := Nat.not_lt.mp h
    have hr := readSizeLoop_spec w 0 s hw hws hb (by positivity)
    simp only [h, if_false, hr]
    have hlen : (s.drop w).length = s.length - w := List.length_drop ..
    by_cases hc : beVal (s.take w) = 0 ∨ s.length - w < beVal (s.take w)
    · simp [hc, hlen]
    · have hn : beVal (s.take w) ≠ 0 := fun h0 => hc (Or.inl h0)
      simp [hc, hlen, head?_take hn]

theorem readSizeLoop_snd : ∀ (k acc : Nat) (s : List Nat),
    (readSizeLoop k acc s).2 = s.drop k := by
  intro k
  induction k with
  | zero => intro acc s; rfl
  | succ k ih =>
    intro acc s
    match s with
    | [] => simp [readSizeLoop]
    | b :: s' =>
      show (readSizeLoop k _ s').2 = _
      rw [ih]
      simp

theorem fromStream_nil (w : Nat) : NalUnit.from_stream [] w = none := by
  cases w with
  | zero => simp [NalUnit.from_stream, readSizeLoop]
  | succ n => simp [NalUnit.from_stream]

theorem fromStream_rest_lt {s rest : List Nat} {w : Nat} {u : NalUnit}
    (h : NalUnit.from_stream s w = some (u, rest)) : rest.length < s.length := by
  simp only [NalUnit.from_stream] at h
  by_cases h1 : s.length < w
  · simp [h1] at h
  · simp only [h1, if_false] at h
    by_cases h2 : (readSizeLoop w 0 s).1 = 0 ∨
        (readSizeLoop w 0 s).2.length < (readSizeLoop w 0 s).1
    · simp [h2] at h
    · simp only [h2, if_false, Option.some.injEq, Prod.mk.injEq] at h
      push_neg at h2
      obtain ⟨hn0, hlen⟩ := h2
      have hrest : rest = ((readSizeLoop w 0 s).2).drop (readSizeLoop w 0 s).1 :=
        h.2.symm
      rw [readSizeLoop_snd] at hrest hlen
      subst hrest
      simp only [List.length_drop] at *
      omega

theorem parseUnitsAux_congr (w : Nat) : ∀ (n f g : Nat) (stream : List Nat),
    stream.length < f → stream.length < g → stream.length ≤ n →
    parseUnitsAux w f stream = parseUnitsAux w g stream := by
  intro n
  induction n with
  | zero =>
    intro f g stream hf hg hn
    match f, g with
    | f' + 1, g' + 1 =>
      have : stream = [] := List.length_eq_zero.mp (by omega)
      subst this
      simp [parseUnitsAux, fromStream_nil]
  | succ n ih =>
    intro f g stream hf hg hn
    match f, g with
    | f' + 1, g' + 1 =>
      show (match NalUnit.from_stream stream w with
        | none => []
        | some (u, rest) => u :: parseUnitsAux w f' rest) = _
      rcases hfs : NalUnit.from_stream stream w with _ | ⟨u, rest⟩
      · simp [parseUnitsAux, hfs]
      · have hlt := fromStream_rest_lt hfs
        simp only [parseUnitsAux, hfs]
        congr 1
        exact ih f' g' rest (by omega) (by omega) (by omega)

theorem parseUnits_eq (stream : List Nat) (w : Nat) :
    parseUnits stream w =
      match NalUnit.from_stream stream w with
      | none => []
      | some (u, rest) => u :: parseUnits rest w := by
  show parseUnitsAux w (stream.length + 1) stream = _
  rcases hfs : NalUnit.from_stream stream w with _ | ⟨u, rest⟩
  · simp [parseUnitsAux, hfs]
  · have hlt := fromStream_rest_lt hfs
    simp only [parseUnitsAux, hfs]
    congr 1
    exact parseUnitsAux_congr w stream.length stream.length (rest.length + 1) rest
      (by omega) (by omega) (by omega)

theorem processUnit_preserve (s : BitstreamConverter) (u : NalUnit) :
    (processUnit s u).1.length_size = s.length_size ∧
      (processUnit s u).1.sps = s.sps ∧ (processUnit s u).1.pps = s.pps := by
  unfold processUnit idrResync
  cases u.nal_type <;> dsimp only <;> repeat' split
  all_goals simp

theorem processUnit_out (s : BitstreamConverter) (u : NalUnit) :
    (processUnit s u).2 = annexB (insBlocks s u ++ [u.bytes]) := by
  have hab : ∀ x y : List (List Nat), annexB (x ++ y) = annexB x ++ annexB y := by
    intro x y; simp [annexB]
  unfold processUnit insBlocks
  cases u.nal_type <;> dsimp only <;> repeat' split
  all_goals simp [annexB, hab, startCode]

theorem processUnits_out (s : BitstreamConverter) (us : List NalUnit) :
    (processUnits s us).2 = annexB (emittedBlocks s us) := by
  induction us generalizing s with
  | nil => simp [processUnits, emittedBlocks, annexB]
  | cons u us ih =>
    show ((processUnits (processUnit s u).1 us).1,
      (processUnit s u).2 ++ (processUnits (processUnit s u).1 us).2).2 = _
    have hab : ∀ x y : List (List Nat), annexB (x ++ y) = annexB x ++ annexB y := by
      intro x y; simp [annexB]
    simp only [emittedBlocks, hab]
    rw [processUnit_out, ih, hab]
    simp

theorem convertLoopAux_spec : ∀ (n f : Nat) (s : BitstreamConverter)
    (stream out : List Nat), stream.length ≤ n → stream.length < f →
    convertLoopAux f s stream out =
      ((processUnits s (parseUnits stream s.length_size)).1,
        out ++ (processUnits s (parseUnits stream s.length_size)).2) := by
  intro n
  induction n with
  | zero =>
    intro f s stream out hn hf
    have : stream = [] := List.length_eq_zero.mp (by omega)
    subst this
    match f with
    | f' + 1 =>
      show (s, out) = _
      rw [parseUnits_eq]
      simp [fromStream_nil, processUnits]
  | succ n ih =>
    intro f s stream out hn hf
    match f with
    | f' + 1 =>
      by_cases hs : stream = []
      · subst hs
        show (s, out) = _
        rw [parseUnits_eq]
        simp [fromStream_nil, processUnits]
      · show (if stream = [] then (s, out) else _) = _
        rw [if_neg hs]
        rcases hfs : NalUnit.from_stream stream s.length_size with _ | ⟨u, rest⟩
        · rw [parseUnits_eq, hfs]
          simp [processUnits]
        · have hlt := fromStream_rest_lt hfs
          rw [parseUnits_eq, hfs]
          simp only
          have hpre := (processUnit_preserve s u).1
          rw [ih f' (processUnit s u).1 rest (out ++ (processUnit s u).2)
            (by omega) (by omega)]
          rw [hpre]
          show _ = ((processUnits s (u :: parseUnits rest s.length_size)).1,
            out ++ (processUnits s (u :: parseUnits rest s.length_size)).2)
          simp only [processUnits]
          rw [List.append_assoc]

theorem convert_packet_eq (s : BitstreamConverter) (packet : List Nat) :
    s.convert_packet packet = processUnits s (parseUnits packet s.length_size) := by
  show convertLoopAux (packet.length + 1) s packet [] = _
  rw [convertLoopAux_spec packet.length (packet.length + 1) s packet []
    (le_refl _) (Nat.lt_succ_self _)]
  simp

theorem classify_isSome (b : Nat) : (NalType.from_u8 (b &&& 31)).isSome := by
  have h : b &&& 31 = b % 32 := Nat.and_pow_two_sub_one_eq_mod b 5
  have h32 : b % 32 < 32 := Nat.mod_lt _ (by norm_num)
  rw [h]
  set k := b % 32 with hk
  interval_cases k <;> rfl

theorem idrResync_fields (s : BitstreamConverter) (u : NalUnit) :
    (idrResync s u).sps_seen = s.sps_seen ∧ (idrResync s u).pps_seen = s.pps_seen ∧
      (idrResync s u).sps = s.sps ∧ (idrResync s u).pps = s.pps ∧
      (idrResync s u).length_size = s.length_size := by
  unfold idrResync
  split <;> simp

/-! ### Claim theorems (first group) -/

/-- **C1.**  Forward conversion of a key-picture (IDR) unit inserts parameter
sets by exactly this policy, where "awaiting" is the value of the
`awaiting_new_picture` flag at the insertion decision, i.e. after the
resynchronisation step of the same arm: if awaiting and neither kind seen,
every stored SPS then every stored PPS is emitted behind 4-byte start codes
and the flag is cleared; if awaiting and SPS seen but not PPS, only the PPS
sets are emitted and the flag is cleared; in every other case nothing is
inserted; and in all cases the unit itself is then emitted behind its own
4-byte start code, never replaced by the insertion. -/
theorem c1_idr_insertion_policy (s : BitstreamConverter) (u : NalUnit)
    (hty : u.nal_type = NalType.IdrSlice) :
    ((idrResync s u).new_idr = true → s.sps_seen = false → s.pps_seen = false →
      (processUnit s u).2 = annexB s.sps ++ annexB s.pps ++ startCode ++ u.bytes ∧
        (processUnit s u).1.new_idr = false) ∧
    ((idrResync s u).new_idr = true → s.sps_seen = true → s.pps_seen = false →
      (processUnit s u).2 = annexB s.pps ++ startCode ++ u.bytes ∧
        (processUnit s u).1.new_idr = false) ∧
    (((idrResync s u).new_idr = false ∨ s.pps_seen = true) →
      (processUnit s u).2 = startCode ++ u.bytes) := by
  obtain ⟨f1, f2, f3, f4, _⟩ := idrResync_fields s u
  unfold processUnit
  rw [hty]
  dsimp only
  refine ⟨?_, ?_, ?_⟩
  · intro ha hs hp
    rw [f1, f2] at *
    simp [ha, hs, hp, f3, f4]
  · intro ha hs hp
    rw [f1, f2] at *
    simp [ha, hs, hp, f3, f4]
  · intro h
    rcases h with ha | hp
    · simp [ha, f1, f2]
    · simp [hp, f1, f2]

/-- Witness for C1 at a concrete state and unit. -/
theorem c1_idr_insertion_policy_witness :
    (⟨NalType.IdrSlice, [101]⟩ : NalUnit).nal_type = NalType.IdrSlice ∧
      (processUnit ⟨1, [[103]], [[104]], true, false, false⟩
          ⟨NalType.IdrSlice, [101]⟩).2 =
        annexB [[103]] ++ annexB [[104]] ++ startCode ++ [101] := by
  have h := c1_idr_insertion_policy ⟨1, [[103]], [[104]], true, false, false⟩
    ⟨NalType.IdrSlice, [101]⟩ rfl
  exact ⟨rfl, (h.1 (by decide) rfl rfl).1⟩

/-- **C4.**  The NAL unit reader returns no unit when fewer than
`length_size` bytes remain or when the big-endian length field is zero or
exceeds the bytes remaining after it; otherwise it returns the unit whose
payload is exactly that many following bytes, classified from the low 5 bits
of the payload's first byte, plus everything after it. -/
theorem c4_unit_reader (stream : List Nat) (w : Nat) (hw : w ≤ 4)
    (hb : ∀ b ∈ stream.take w, b < 256) :
    NalUnit.from_stream stream w =
      if stream.length < w then none
      else if beVal (stream.take w) = 0 ∨ stream.length - w < beVal (stream.take w)
      then none
      else some (⟨classify ((stream.drop w).headD 0),
        (stream.drop w).take (beVal (stream.take w))⟩,
        (stream.drop w).drop (beVal (stream.take w))) :=
  fromStream_char stream w hw hb

/-- Witness for C4 at a concrete stream and width. -/
theorem c4_unit_reader_witness :
    ((2 : Nat) ≤ 4 ∧ ∀ b ∈ ([0, 3, 101, 136, 7, 9] : List Nat).take 2, b < 256) ∧
      NalUnit.from_stream [0, 3, 101, 136, 7, 9] 2 =
        some (⟨NalType.IdrSlice, [101, 136, 7]⟩, [9]) := by
  have h := c4_unit_reader [0, 3, 101, 136, 7, 9] 2 (by decide) (by decide)
  refine ⟨⟨by decide, by decide⟩, ?_⟩
  rw [h]
  decide

/-- **C8.**  The claim asks that classification of a NAL header code never
crash: codes 0–31 map to the matching kind and out-of-range codes map to an
explicit invalid outcome.  The source instead `panic!`s on any value ≥ 32
(modelled as `none`), while mapping 0–31 correctly; the specification's
design notes themselves call the abort a defect.  This theorem evaluates the
classifier at the failing input 32 and at in-range inputs. -/
theorem c8_from_u8_panics_on_32 :
    NalType.from_u8 32 = none ∧ NalType.from_u8 5 = some NalType.IdrSlice ∧
      NalType.from_u8 31 = some NalType.Unspecified31 ∧
      NalType.from_u8 255 = none :=
  ⟨rfl, rfl, rfl, rfl⟩

/-- **C9.**  A 1-byte IDR payload never triggers the resynchronisation: the
inspection of byte offset 1 is guarded by the payload-length check, so
`idrResync` is the identity there and processing such a unit never turns
`awaiting_new_picture` on. -/
theorem c9_one_byte_idr (s : BitstreamConverter) (u : NalUnit)
    (hty : u.nal_type = NalType.IdrSlice) (hlen : u.bytes.length = 1) :
    idrResync s u = s ∧
      ((processUnit s u).1.new_idr = true → s.new_idr = true) := by
  have hres : idrResync s u = s := by
    unfold idrResync
    simp [hlen]
  refine ⟨hres, ?_⟩
  unfold processUnit
  rw [hty]
  dsimp only
  rw [hres]
  split_ifs <;> simp_all

/-- Witness for C9 at a concrete state and 1-byte unit. -/
theorem c9_one_byte_idr_witness :
    ((⟨NalType.IdrSlice, [101]⟩ : NalUnit).nal_type = NalType.IdrSlice ∧
      (⟨NalType.IdrSlice, [101]⟩ : NalUnit).bytes.length = 1) ∧
      idrResync ⟨4, [[103]], [[104]], false, false, false⟩ ⟨NalType.IdrSlice, [101]⟩ =
        ⟨4, [[103]], [[104]], false, false, false⟩ := by
  have h := c9_one_byte_idr ⟨4, [[103]], [[104]], false, false, false⟩
    ⟨NalType.IdrSlice, [101]⟩ rfl rfl
  exact ⟨⟨rfl, rfl⟩, h.1⟩

/-- **C10.**  The inverse converter's length prefix encodes the unit length
reduced modulo `2^(8·length_size)`, and it equals the true length exactly
when the unit is shorter than `2^(8·length_size)` bytes. -/
theorem c10_length_prefix_mod (w len : Nat) (h1 : 1 ≤ w) (h4 : w ≤ 4) :
    beVal (writeLen w len) = len % 2 ^ (8 * w) ∧
      (beVal (writeLen w len) = len ↔ len < 2 ^ (8 * w)) := by
  interval_cases w <;> constructor <;> simp [writeLen, beVal] <;> omega

/-- Witness for C10: width 1 truncates the length 300 to 44. -/
theorem c10_length_prefix_mod_witness :
    ((1 : Nat) ≤ 1 ∧ (1 : Nat) ≤ 4) ∧
      beVal (writeLen 1 300) = 300 % 2 ^ (8 * 1) ∧ ¬ (300 : Nat) < 2 ^ (8 * 1) := by
  have h := c10_length_prefix_mod 1 300 (le_refl 1) (by norm_num)
  exact ⟨⟨le_refl 1, by norm_num⟩, h.1, by decide⟩

theorem readPsList_encode : ∀ (sets : List (List Nat)) (rest : List Nat),
    (∀ p ∈ sets, p ≠ [] ∧ p.length < 65536) →
    readPsList sets.length (encodePS sets ++ rest) = some (sets, rest) := by
  intro sets
  induction sets with
  | nil => intro rest _; simp [readPsList, encodePS]
  | cons x xs ih =>
    intro rest h
    obtain ⟨hx0, hxlen⟩ := h x (by simp)
    have hxs : ∀ p ∈ xs, p ≠ [] ∧ p.length < 65536 := fun p hp => h p (by simp [hp])
    have henc : encodePS (x :: xs) ++ rest =
        (x.length / 256 % 256) :: (x.length % 256) :: (x ++ (encodePS xs ++ rest)) := by
      simp [encodePS, beBytes]
    have hlen0 : x.length ≠ 0 := by
      intro h0
      exact hx0 (List.length_eq_zero.mp h0)
    have hval : x.length / 256 % 256 * 256 + x.length % 256 = x.length := by omega
    rw [List.length_cons, henc]
    simp only [readPsList, readU16BE, hval, Option.bind_eq_bind, Option.some_bind]
    rw [if_neg hlen0]
    simp only [readExact]
    rw [if_pos (by simp : x.length ≤ (x ++ (encodePS xs ++ rest)).length)]
    simp only [List.take_left, List.drop_left, Option.some_bind]
    rw [ih rest hxs]
    simp

theorem parseAvccBody_encode (v pr co le w : Nat) (sps pps : List (List Nat))
    (h1 : 1 ≤ w) (h4 : w ≤ 4) (hns : sps.length < 32)
    (hsps : ∀ p ∈ sps, p ≠ [] ∧ p.length < 65536)
    (hpps : ∀ p ∈ pps, p ≠ [] ∧ p.length < 65536) :
    parseAvccBody (mkAvccRecord v pr co le w sps pps) = some ⟨sps, pps, w⟩ := by
  have hw : w - 1 &&& 3 = w - 1 := by
    have hmask := Nat.and_pow_two_sub_one_eq_mod (w - 1) 2
    norm_num at hmask
    rw [hmask]
    omega
  have hn : sps.length &&& 31 = sps.length := by
    have hmask := Nat.and_pow_two_sub_one_eq_mod sps.length 5
    norm_num at hmask
    rw [hmask]
    omega
  have hrec : mkAvccRecord v pr co le w sps pps =
      v :: pr :: co :: le :: (w - 1) :: sps.length ::
        (encodePS sps ++ (pps.length :: encodePS pps)) := by
    simp [mkAvccRecord]
  rw [hrec]
  unfold parseAvccBody
  simp only [readU8, Option.bind_eq_bind, Option.some_bind]
  rw [hw, hn]
  rw [readPsList_encode sps (pps.length :: encodePS pps) hsps]
  simp only [Option.some_bind]
  have hpenc : readPsList pps.length (encodePS pps) = some (pps, []) := by
    have := readPsList_encode pps [] hpps
    simpa using this
  rw [hpenc]
  simp only [Option.some_bind]
  congr 2
  omega

/-- **C5.**  Configuration records shorter than 7 bytes fail with the
record-too-short error; every valid record (width 1–4, up to 31 primary and
255 supplementary non-empty sets, each shorter than 2^16 bytes) parses to
exactly the encoded lists, byte-identical, with the declared width. -/
theorem c5_avcc_record_parsing :
    (∀ r : List Nat, r.length < 7 → AvccInfo.from_avcc r = .error "AVCC too short") ∧
    (∀ (v pr co le w : Nat) (sps pps : List (List Nat)),
      1 ≤ w → w ≤ 4 → sps.length < 32 → pps.length < 256 →
      (∀ p ∈ sps, p ≠ [] ∧ p.length < 65536) →
      (∀ p ∈ pps, p ≠ [] ∧ p.length < 65536) →
      AvccInfo.from_avcc (mkAvccRecord v pr co le w sps pps) =
        .ok ⟨sps, pps, w⟩) := by
  constructor
  · intro r hr
    unfold AvccInfo.from_avcc
    rw [if_pos hr]
  · intro v pr co le w sps pps h1 h4 hns _hnp hsps hpps
    unfold AvccInfo.from_avcc
    have hlen : ¬ (mkAvccRecord v pr co le w sps pps).length < 7 := by
      simp [mkAvccRecord]
      omega
    rw [if_neg hlen, parseAvccBody_encode v pr co le w sps pps h1 h4 hns hsps hpps]

/-- Witness for C5: a short record and the concrete record of the C3
scenario. -/
theorem c5_avcc_record_parsing_witness :
    (([0, 0, 0] : List Nat).length < 7 ∧
      AvccInfo.from_avcc [0, 0, 0] = .error "AVCC too short") ∧
    ((1 : Nat) ≤ 4 ∧ (4 : Nat) ≤ 4 ∧
      AvccInfo.from_avcc (mkAvccRecord 1 100 0 40 4 [[103, 1, 2]] [[104, 3]]) =
        .ok ⟨[[103, 1, 2]], [[104, 3]], 4⟩) :=
  ⟨⟨by decide, c5_avcc_record_parsing.1 [0, 0, 0] (by decide)⟩,
    by decide, by decide,
    c5_avcc_record_parsing.2 1 100 0 40 4 [[103, 1, 2]] [[104, 3]]
      (by decide) (by decide) (by decide) (by decide) (by decide) (by decide)⟩

theorem headD_append {p r : List Nat} (hp : p ≠ []) :
    (p ++ r).headD 0 = p.headD 0 := by
  cases p with
  | nil => exact absurd rfl hp
  | cons x xs => simp

theorem fromStream_encode (w : Nat) (p r : List Nat) (h1 : 1 ≤ w) (h4 : w ≤ 4)
    (hp : p ≠ []) (hlen : p.length < 256 ^ w) :
    NalUnit.from_stream (beBytes w p.length ++ (p ++ r)) w =
      some (⟨classify (p.headD 0), p⟩, r) := by
  set s := beBytes w p.length ++ (p ++ r) with hs
  have hbl : (beBytes w p.length).length = w := beBytes_length ..
  have htake : s.take w = beBytes w p.length := List.take_left' hbl
  have hdrop : s.drop w = p ++ r := List.drop_left' hbl
  have hslen : s.length = w + (p.length + r.length) := by
    rw [hs]
    simp [hbl]
  have hbv : beVal (s.take w) = p.length := by
    rw [htake, beVal_beBytes, Nat.mod_eq_of_lt hlen]
  have hchar := fromStream_char s w h4 (by
    intro b hb
    rw [htake] at hb
    exact beBytes_lt w p.length b hb)
  rw [hchar]
  have hp0 : p.length ≠ 0 := fun h0 => hp (List.length_eq_zero.mp h0)
  rw [if_neg (by omega), if_neg (by
    rw [hbv]
    push_neg
    constructor
    · exact hp0
    · omega)]
  rw [hbv, hdrop]
  rw [List.take_left, List.drop_left, headD_append hp]

theorem parseUnits_encode (w : Nat) (ps : List (List Nat)) (tail : List Nat)
    (h1 : 1 ≤ w) (h4 : w ≤ 4)
    (hps : ∀ p ∈ ps, p ≠ [] ∧ p.length < 256 ^ w)
    (htail : NalUnit.from_stream tail w = none) :
    parseUnits (encodePayloads w ps ++ tail) w =
      ps.map fun p => ⟨classify (p.headD 0), p⟩ := by
  induction ps with
  | nil =>
    rw [parseUnits_eq]
    simp only [encodePayloads, List.flatMap_nil, List.nil_append, htail]
    simp
  | cons p ps ih =>
    obtain ⟨hp0, hplen⟩ := hps p (by simp)
    have henc : encodePayloads w (p :: ps) ++ tail =
        beBytes w p.length ++ (p ++ (encodePayloads w ps ++ tail)) := by
      simp [encodePayloads]
    rw [henc, parseUnits_eq,
      fromStream_encode w p (encodePayloads w ps ++ tail) h1 h4 hp0 hplen]
    simp only [List.map_cons]
    congr 1
    exact ih fun q hq => hps q (by simp [hq])

/-- **C7.**  A packet made of fully-valid length-prefixed units followed by a
truncated tail (fewer bytes than the length field, or a declared length
exceeding the rest) converts exactly as the packet without the tail: the
call does not fail, all prior units are emitted, nothing for the tail. -/
theorem c7_truncation_tolerance (s : BitstreamConverter) (ps : List (List Nat))
    (tail : List Nat) (h1 : 1 ≤ s.length_size) (h4 : s.length_size ≤ 4)
    (hps : ∀ p ∈ ps, p ≠ [] ∧ p.length < 256 ^ s.length_size)
    (htb : ∀ b ∈ tail.take s.length_size, b < 256)
    (htail : tail.length < s.length_size ∨
      tail.length - s.length_size < beVal (tail.take s.length_size)) :
    s.convert_packet (encodePayloads s.length_size ps ++ tail) =
      s.convert_packet (encodePayloads s.length_size ps) := by
  have hnone : NalUnit.from_stream tail s.length_size = none := by
    rw [fromStream_char tail s.length_size h4 htb]
    rcases htail with h | h
    · rw [if_pos h]
    · by_cases hlt : tail.length < s.length_size
      · rw [if_pos hlt]
      · rw [if_neg hlt, if_pos (Or.inr h)]
  have hnil : NalUnit.from_stream ([] : List Nat) s.length_size = none :=
    fromStream_nil _
  rw [convert_packet_eq, convert_packet_eq]
  rw [parseUnits_encode s.length_size ps tail h1 h4 hps hnone]
  rw [show encodePayloads s.length_size ps = encodePayloads s.length_size ps ++ [] by simp]
  rw [parseUnits_encode s.length_size ps [] h1 h4 hps hnil]

/-- Witness for C7: one valid 2-byte unit followed by a declared length 9
with no bytes behind it. -/
theorem c7_truncation_tolerance_witness :
    ((1 : Nat) ≤ 1 ∧ (1 : Nat) ≤ 4 ∧
      (([9] : List Nat).length - 1 < beVal (([9] : List Nat).take 1))) ∧
      BitstreamConverter.convert_packet ⟨1, [], [], true, false, false⟩
          (encodePayloads 1 [[65, 7]] ++ [9]) =
        BitstreamConverter.convert_packet ⟨1, [], [], true, false, false⟩
          (encodePayloads 1 [[65, 7]]) :=
  ⟨⟨by decide, by decide, by decide⟩,
    c7_truncation_tolerance ⟨1, [], [], true, false, false⟩ [[65, 7]] [9]
      (by decide) (by decide) (by decide) (by decide) (Or.inr (by decide))⟩

theorem processUnit_idr_stale (s : BitstreamConverter) (u : NalUnit)
    (hty : u.nal_type = NalType.IdrSlice) (hn : s.new_idr = false)
    (hres : ¬(1 < u.bytes.length ∧ u.bytes.getD 1 0 &&& 128 ≠ 0)) :
    processUnit s u = (s, startCode ++ u.bytes) := by
  have hr : idrResync s u = s := by
    unfold idrResync
    split
    · next hcond =>
      exfalso
      simp only [Bool.and_eq_true, decide_eq_true_eq] at hcond
      exact hres ⟨hcond.1.2, hcond.2⟩
    · rfl
  unfold processUnit
  rw [hty]
  dsimp only
  rw [hr]
  simp [hn]

theorem countInsertions_zero (s : BitstreamConverter) (us : List NalUnit)
    (hn : s.new_idr = false)
    (hall : ∀ u ∈ us, u.nal_type = NalType.IdrSlice ∧
      ¬(1 < u.bytes.length ∧ u.bytes.getD 1 0 &&& 128 ≠ 0)) :
    countInsertions s us = 0 := by
  induction us with
  | nil => rfl
  | cons u us ih =>
    obtain ⟨hty, hres⟩ := hall u (by simp)
    have hpu := processUnit_idr_stale s u hty hn hres
    show (if (processUnit s u).2 = startCode ++ u.bytes then 0 else 1) +
      countInsertions (processUnit s u).1 us = 0
    rw [hpu]
    have hc : ((s, startCode ++ u.bytes).2 = startCode ++ u.bytes) := rfl
    rw [if_pos hc, Nat.zero_add]
    exact ih fun x hx => hall x (by simp [hx])

theorem processUnit_idr_chunk_or_cleared (s : BitstreamConverter) (u : NalUnit)
    (hty : u.nal_type = NalType.IdrSlice) :
    (processUnit s u).2 = startCode ++ u.bytes ∨
      (processUnit s u).1.new_idr = false := by
  unfold processUnit
  rw [hty]
  dsimp only
  split_ifs <;> simp_all

/-- **C6.**  Over a run of consecutive key-picture units belonging to one
picture (first-macroblock bit clear on every unit after the first), however
the run is split into packets, parameter sets are inserted at most once:
at most one unit's emission differs from the bare start-coded unit. -/
theorem c6_insertion_at_most_once (s : BitstreamConverter) (us : List NalUnit)
    (hall : ∀ u ∈ us, u.nal_type = NalType.IdrSlice)
    (htail : ∀ u ∈ us.tail, ¬(1 < u.bytes.length ∧ u.bytes.getD 1 0 &&& 128 ≠ 0)) :
    countInsertions s us ≤ 1 := by
  induction us generalizing s with
  | nil => simp [countInsertions]
  | cons u us ih =>
    have hty : u.nal_type = NalType.IdrSlice := hall u (by simp)
    have htail' : ∀ x ∈ us, ¬(1 < x.bytes.length ∧ x.bytes.getD 1 0 &&& 128 ≠ 0) := by
      intro x hx
      exact htail x (by simpa using hx)
    show (if (processUnit s u).2 = startCode ++ u.bytes then 0 else 1) +
      countInsertions (processUnit s u).1 us ≤ 1
    by_cases hins : (processUnit s u).2 = startCode ++ u.bytes
    · rw [if_pos hins]
      have hrec := ih (processUnit s u).1 (fun x hx => hall x (by simp [hx]))
        (fun x hx => htail' x (List.mem_of_mem_tail hx))
      omega
    · rw [if_neg hins]
      have hnf : (processUnit s u).1.new_idr = false := by
        rcases processUnit_idr_chunk_or_cleared s u hty with h | h
        · exact absurd h hins
        · exact h
      have hz := countInsertions_zero (processUnit s u).1 us hnf
        (fun x hx => ⟨hall x (by simp [hx]), htail' x hx⟩)
      omega

/-- Witness for C6: two IDR units of one picture, state armed for insertion. -/
theorem c6_insertion_at_most_once_witness :
    ((∀ u ∈ [(⟨NalType.IdrSlice, [101, 136]⟩ : NalUnit), ⟨NalType.IdrSlice, [101, 0]⟩],
        u.nal_type = NalType.IdrSlice) ∧
      (∀ u ∈ ([(⟨NalType.IdrSlice, [101, 136]⟩ : NalUnit), ⟨NalType.IdrSlice, [101, 0]⟩] :
          List NalUnit).tail,
        ¬(1 < u.bytes.length ∧ u.bytes.getD 1 0 &&& 128 ≠ 0))) ∧
      countInsertions ⟨4, [[103]], [[104]], true, false, false⟩
        [⟨NalType.IdrSlice, [101, 136]⟩, ⟨NalType.IdrSlice, [101, 0]⟩] ≤ 1 :=
  ⟨⟨by decide, by decide⟩,
    c6_insertion_at_most_once ⟨4, [[103]], [[104]], true, false, false⟩
      [⟨NalType.IdrSlice, [101, 136]⟩, ⟨NalType.IdrSlice, [101, 0]⟩]
      (by decide) (by decide)⟩

/-- **C3 (counterexample).**  In the claimed scenario (width 4, one primary
set `67 01 02`, one supplementary set `68 03`, two consecutive one-unit
key-picture packets with the first-macroblock bit set), the second
conversion does *not* produce only the start-coded key unit: the converter
re-inserts the parameter sets. -/
theorem c3_second_packet_counterexample :
    AvccInfo.from_avcc [1, 100, 0, 40, 255, 225, 0, 3, 103, 1, 2, 1, 0, 2, 104, 3] =
      .ok ⟨[[103, 1, 2]], [[104, 3]], 4⟩ ∧
    ¬ (((BitstreamConverter.from_avcc ⟨[[103, 1, 2]], [[104, 3]], 4⟩).convert_packet
          [0, 0, 0, 2, 101, 136]).1.convert_packet [0, 0, 0, 2, 101, 136]).2 =
        [0, 0, 0, 1, 101, 136] := by
  constructor
  · rfl
  · decide

/-- **C3 (amended).**  First packet: start-coded primary set, supplementary
set, key unit, in that order, as claimed.  Second packet: the same full
sequence again — the set first-macroblock bit re-arms `awaiting_new_picture`
and the seen flags track only in-stream parameter sets, so the insertion
repeats instead of being suppressed. -/
theorem c3_concrete_scenario :
    AvccInfo.from_avcc [1, 100, 0, 40, 255, 225, 0, 3, 103, 1, 2, 1, 0, 2, 104, 3] =
      .ok ⟨[[103, 1, 2]], [[104, 3]], 4⟩ ∧
    ((BitstreamConverter.from_avcc ⟨[[103, 1, 2]], [[104, 3]], 4⟩).convert_packet
        [0, 0, 0, 2, 101, 136]).2 =
      [0, 0, 0, 1, 103, 1, 2, 0, 0, 0, 1, 104, 3, 0, 0, 0, 1, 101, 136] ∧
    (((BitstreamConverter.from_avcc ⟨[[103, 1, 2]], [[104, 3]], 4⟩).convert_packet
        [0, 0, 0, 2, 101, 136]).1.convert_packet [0, 0, 0, 2, 101, 136]).2 =
      [0, 0, 0, 1, 103, 1, 2, 0, 0, 0, 1, 104, 3, 0, 0, 0, 1, 101, 136] := by
  refine ⟨rfl, by decide, by decide⟩

theorem findNextAux_congr (a : List Nat) : ∀ (f g j : Nat),
    a.length ≤ j + f → a.length ≤ j + g → findNextAux a f j = findNextAux a g j := by
  intro f
  induction f with
  | zero =>
    intro g j hf hg
    match g with
    | 0 => rfl
    | g' + 1 =>
      show j = findNextAux a (g' + 1) j
      unfold findNextAux
      rw [if_neg (by omega)]
  | succ f' ih =>
    intro g j hf hg
    match g with
    | 0 =>
      show findNextAux a (f' + 1) j = findNextAux a 0 j
      unfold findNextAux
      rw [if_neg (by omega)]
    | g' + 1 =>
      show (if j < a.length then (if isStartAt a j then j else findNextAux a f' (j + 1)) else j)
        = (if j < a.length then (if isStartAt a j then j else findNextAux a g' (j + 1)) else j)
      by_cases hj : j < a.length
      · rw [if_pos hj, if_pos hj]
        by_cases hs : isStartAt a j
        · rw [if_pos hs, if_pos hs]
        · rw [if_neg hs, if_neg hs]
          exact ih g' (j + 1) (by omega) (by omega)
      · rw [if_neg hj, if_neg hj]

theorem findNext_eq (a : List Nat) (j : Nat) :
    findNext a j =
      if j < a.length then (if isStartAt a j then j else findNext a (j + 1)) else j := by
  show findNextAux a (a.length + 1) j = _
  unfold findNextAux
  by_cases hj : j < a.length
  · rw [if_pos hj, if_pos hj]
    by_cases hs : isStartAt a j
    · rw [if_pos hs, if_pos hs]
    · rw [if_neg hs, if_neg hs]
      exact findNextAux_congr a a.length (a.length + 1) (j + 1) (by omega) (by omega)
  · rw [if_neg hj, if_neg hj]

theorem findNext_ge (a : List Nat) : ∀ (n j : Nat), a.length - j ≤ n → j ≤ findNext a j := by
  intro n
  induction n with
  | zero =>
    intro j h
    rw [findNext_eq, if_neg (by omega)]
  | succ n ih =>
    intro j h
    rw [findNext_eq]
    by_cases hj : j < a.length
    · rw [if_pos hj]
      by_cases hs : isStartAt a j
      · rw [if_pos hs]
      · rw [if_neg hs]
        have := ih (j + 1) (by omega)
        omega
    · rw [if_neg hj]

theorem isStartAt_shift (x a : List Nat) (k : Nat) :
    isStartAt (x ++ a) (x.length + k) = isStartAt a k := by
  unfold isStartAt
  rw [List.drop_append, List.length_append]
  congr 1
  simp [decide_eq_decide]
  omega

theorem startCodeLen_shift (x a : List Nat) (k : Nat) :
    startCodeLen (x ++ a) (x.length + k) = startCodeLen a k := by
  unfold startCodeLen
  rw [List.drop_append, List.length_append]
  have h3 : x.length + k + 3 < x.length + a.length ↔ k + 3 < a.length := by omega
  have h2 : x.length + k + 2 < x.length + a.length ↔ k + 2 < a.length := by omega
  simp only [h3, h2]

theorem startCodeLen_cases (a : List Nat) (i scl : Nat)
    (h : startCodeLen a i = some scl) : scl = 3 ∨ scl = 4 := by
  unfold startCodeLen at h
  split at h
  · simp only [Option.some.injEq] at h
    omega
  · split at h
    · simp only [Option.some.injEq] at h
      omega
    · exact absurd h (by simp)

theorem findNext_shift (x a : List Nat) : ∀ (n k : Nat), a.length - k ≤ n →
    findNext (x ++ a) (x.length + k) = x.length + findNext a k := by
  intro n
  induction n with
  | zero =>
    intro k h
    rw [findNext_eq, findNext_eq a k, List.length_append,
      if_neg (by omega), if_neg (by omega)]
  | succ n ih =>
    intro k h
    rw [findNext_eq, findNext_eq a k, List.length_append]
    by_cases hk : k < a.length
    · rw [if_pos (by omega), if_pos hk, isStartAt_shift]
      by_cases hs : isStartAt a k
      · rw [if_pos hs, if_pos hs]
      · rw [if_neg hs, if_neg hs]
        have := ih (k + 1) (by omega)
        rw [show x.length + k + 1 = x.length + (k + 1) by omega]
        exact this
    · rw [if_neg (by omega), if_neg hk]

theorem findNext_spec (a : List Nat) : ∀ (n s t : Nat), t - s ≤ n → s ≤ t →
    (∀ j, s ≤ j → j < t → isStartAt a j = false) →
    (isStartAt a t = true ∨ t = a.length) → findNext a s = t := by
  intro n
  induction n with
  | zero =>
    intro s t hn hst _ hend
    have hseq : s = t := by omega
    subst hseq
    rcases hend with h | h
    · have hlt : s + 3 < a.length := by
        unfold isStartAt at h
        simp only [Bool.and_eq_true, decide_eq_true_eq] at h
        exact h.1
      rw [findNext_eq, if_pos (by omega), if_pos h]
    · rw [findNext_eq, if_neg (by omega)]
  | succ n ih =>
    intro s t hn hst hmid hend
    by_cases hseq : s = t
    · subst hseq
      rcases hend with h | h
      · have hlt : s + 3 < a.length := by
          unfold isStartAt at h
          simp only [Bool.and_eq_true, decide_eq_true_eq] at h
          exact h.1
        rw [findNext_eq, if_pos (by omega), if_pos h]
      · rw [findNext_eq, if_neg (by omega)]
    · have hslt : s < t := by omega
      have hsa : s < a.length := by
        rcases hend with h | h
        · unfold isStartAt at h
          simp only [Bool.and_eq_true, decide_eq_true_eq] at h
          omega
        · omega
      rw [findNext_eq, if_pos hsa, if_neg (by
        rw [hmid s (le_refl s) hslt]
        exact Bool.false_ne_true)]
      exact ih (s + 1) t (by omega) (by omega)
        (fun j hj hjt => hmid j (by omega) hjt) hend

theorem convBackAux_congr (a : List Nat) (w : Nat) : ∀ (f g i : Nat),
    a.length ≤ i + f → a.length ≤ i + g →
    convBackAux a w f i = convBackAux a w g i := by
  intro f
  induction f with
  | zero =>
    intro g i hf hg
    match g with
    | 0 => rfl
    | g' + 1 =>
      show ([] : List Nat) = convBackAux a w (g' + 1) i
      unfold convBackAux
      rw [if_neg (by omega)]
  | succ f' ih =>
    intro g i hf hg
    match g with
    | 0 =>
      show convBackAux a w (f' + 1) i = ([] : List Nat)
      unfold convBackAux
      rw [if_neg (by omega)]
    | g' + 1 =>
      unfold convBackAux
      by_cases hi : i < a.length
      · rw [if_pos hi, if_pos hi]
        cases hsc : startCodeLen a i with
        | none =>
          simp only
          exact ih g' (i + 1) (by omega) (by omega)
        | some scl =>
          simp only
          have hscl : scl = 3 ∨ scl = 4 := startCodeLen_cases a i scl hsc
          have hjge : i + scl ≤ findNext a (i + scl) :=
            findNext_ge a a.length (i + scl) (by omega)
          by_cases hst : a.length ≤ i + scl
          · rw [if_pos hst, if_pos hst]
          · rw [if_neg hst, if_neg hst]
            by_cases hnal : (a.drop (i + scl)).take (findNext a (i + scl) - (i + scl)) = []
            · rw [if_pos hnal, if_pos hnal]
              exact ih g' (findNext a (i + scl)) (by omega) (by omega)
            · rw [if_neg hnal, if_neg hnal]
              by_cases hd : discardNal (classify
                  (((a.drop (i + scl)).take (findNext a (i + scl) - (i + scl))).headD 0))
              · rw [if_pos hd, if_pos hd]
                exact ih g' (findNext a (i + scl)) (by omega) (by omega)
              · rw [if_neg hd, if_neg hd]
                rw [ih g' (findNext a (i + scl)) (by omega) (by omega)]
      · rw [if_neg hi, if_neg hi]

theorem convBackAux_step (a : List Nat) (w i : Nat) :
    convBackAux a w (a.length + 1) i =
      if i < a.length then
        match startCodeLen a i with
        | none => convBackAux a w (a.length + 1) (i + 1)
        | some scl =>
          if a.length ≤ i + scl then []
          else if (a.drop (i + scl)).take (findNext a (i + scl) - (i + scl)) = [] then
            convBackAux a w (a.length + 1) (findNext a (i + scl))
          else if discardNal (classify
              (((a.drop (i + scl)).take (findNext a (i + scl) - (i + scl))).headD 0)) then
            convBackAux a w (a.length + 1) (findNext a (i + scl))
          else writeLen w ((a.drop (i + scl)).take (findNext a (i + scl) - (i + scl))).length ++
            ((a.drop (i + scl)).take (findNext a (i + scl) - (i + scl)) ++
              convBackAux a w (a.length + 1) (findNext a (i + scl)))
      else [] := by
  conv_lhs => unfold convBackAux
  by_cases hi : i < a.length
  · rw [if_pos hi, if_pos hi]
    cases hsc : startCodeLen a i with
    | none =>
      simp only
      exact convBackAux_congr a w a.length (a.length + 1) (i + 1) (by omega) (by omega)
    | some scl =>
      simp only
      have hscl : scl = 3 ∨ scl = 4 := startCodeLen_cases a i scl hsc
      have hjge : i + scl ≤ findNext a (i + scl) :=
        findNext_ge a a.length (i + scl) (by omega)
      by_cases hst : a.length ≤ i + scl
      · rw [if_pos hst, if_pos hst]
      · rw [if_neg hst, if_neg hst]
        by_cases hnal : (a.drop (i + scl)).take (findNext a (i + scl) - (i + scl)) = []
        · rw [if_pos hnal, if_pos hnal]
          exact convBackAux_congr a w a.length (a.length + 1) _ (by omega) (by omega)
        · rw [if_neg hnal, if_neg hnal]
          by_cases hd : discardNal (classify
              (((a.drop (i + scl)).take (findNext a (i + scl) - (i + scl))).headD 0))
          · rw [if_pos hd, if_pos hd]
            exact convBackAux_congr a w a.length (a.length + 1) _ (by omega) (by omega)
          · rw [if_neg hd, if_neg hd]
            rw [List.append_assoc,
              convBackAux_congr a w a.length (a.length + 1)
                (findNext a (i + scl)) (by omega) (by omega)]
  · rw [if_neg hi, if_neg hi]

theorem convBackAux_shift (w : Nat) (x y : List Nat) : ∀ (n k : Nat), y.length - k ≤ n →
    convBackAux (x ++ y) w ((x ++ y).length + 1) (x.length + k) =
      convBackAux y w (y.length + 1) k := by
  intro n
  induction n with
  | zero =>
    intro k h
    conv_lhs => rw [convBackAux_step]
    conv_rhs => rw [convBackAux_step]
    rw [if_neg (by rw [List.length_append]; omega), if_neg (by omega)]
  | succ n ih =>
    intro k h
    by_cases hk : k < y.length
    case neg =>
      conv_lhs => rw [convBackAux_step]
      conv_rhs => rw [convBackAux_step]
      rw [if_neg (by rw [List.length_append]; omega), if_neg (by omega)]
    case pos =>
      conv_lhs => rw [convBackAux_step]
      conv_rhs => rw [convBackAux_step]
      rw [if_pos (by rw [List.length_append]; omega), if_pos hk]
      have hscs : startCodeLen (x ++ y) (x.length + k) = startCodeLen y k :=
        startCodeLen_shift x y k
      rw [hscs]
      cases hsc : startCodeLen y k with
      | none =>
        simp only
        rw [show x.length + k + 1 = x.length + (k + 1) by omega]
        exact ih (k + 1) (by omega)
      | some scl =>
        simp only
        have hscl : scl = 3 ∨ scl = 4 := startCodeLen_cases y k scl hsc
        have hjs : findNext (x ++ y) (x.length + k + scl) =
            x.length + findNext y (k + scl) := by
          rw [show x.length + k + scl = x.length + (k + scl) by omega]
          exact findNext_shift x y y.length (k + scl) (by omega)
        have hjge : k + scl ≤ findNext y (k + scl) :=
          findNext_ge y y.length _ (by omega)
        rw [hjs]
        have hdropeq : (x ++ y).drop (x.length + k + scl) = y.drop (k + scl) := by
          rw [show x.length + k + scl = x.length + (k + scl) by omega, List.drop_append]
        rw [hdropeq]
        have harith : x.length + findNext y (k + scl) - (x.length + k + scl) =
            findNext y (k + scl) - (k + scl) := by omega
        rw [harith]
        have hrec : convBackAux (x ++ y) w ((x ++ y).length + 1)
            (x.length + findNext y (k + scl)) =
            convBackAux y w (y.length + 1) (findNext y (k + scl)) :=
          ih (findNext y (k + scl)) (by omega)
        rw [hrec]
        by_cases hst : y.length ≤ k + scl
        · rw [if_pos (by rw [List.length_append]; omega), if_pos hst]
        · rw [if_neg (by rw [List.length_append]; omega), if_neg hst]

theorem window_in_payload {p : List Nat} {k : Nat}
    (h : (p.drop k).take 3 = [0, 0, 1]) : List.IsInfix [0, 0, 1] p := by
  refine ⟨p.take k, (p.drop k).drop 3, ?_⟩
  rw [← h, List.append_assoc, List.take_append_drop, List.take_append_drop]

theorem noStart_within (p post : List Nat) (hclean : cleanPayload p)
    (hpost : post = [] ∨ ∃ q, post = startCode ++ q) :
    ∀ k, k < p.length → isStartAt (p ++ post) k = false := by
  unfold cleanPayload at hclean
  intro k hk
  cases hiv : isStartAt (p ++ post) k
  · rfl
  · exfalso
    unfold isStartAt at hiv
    simp only [Bool.and_eq_true, decide_eq_true_eq, Bool.or_eq_true, beq_iff_eq] at hiv
    obtain ⟨hlen, hwin⟩ := hiv
    rw [List.drop_append_of_le_length (by omega)] at hwin
    have hdd : p.drop (k + 1) = (p.drop k).drop 1 := by
      rw [List.drop_drop]
    rcases hdm : p.drop k with _ | ⟨a, _ | ⟨b, _ | ⟨c, e⟩⟩⟩
    · have := List.length_drop k p
      rw [hdm] at this
      simp at this
      omega
    · rw [hdm] at hwin
      rcases hpost with hq | ⟨q, hq⟩ <;> subst hq <;>
        rcases hwin with hw | hw <;> simp [startCode] at hw
    · rw [hdm] at hwin
      rcases hpost with hq | ⟨q, hq⟩ <;> subst hq <;>
        rcases hwin with hw | hw <;> simp [startCode] at hw
    · rw [hdm] at hwin
      rcases hwin with hw | hw
      · rcases e with _ | ⟨e0, e'⟩
        · rcases hpost with hq | ⟨q, hq⟩ <;> subst hq <;> simp [startCode] at hw
        · simp at hw
          obtain ⟨ha, hb, hc, he0⟩ := hw
          exact hclean (window_in_payload (k := k + 1) (by
            rw [hdd, hdm]
            simp [hb, hc, he0]))
      · simp at hw
        obtain ⟨ha, hb, hc⟩ := hw
        exact hclean (window_in_payload (k := k) (by
          rw [hdm]
          simp [ha, hb, hc]))

theorem convBack_annexB (w : Nat) : ∀ (blocks : List (List Nat)),
    (∀ p ∈ blocks, p ≠ [] ∧ cleanPayload p) →
    convBackAux (annexB blocks) w ((annexB blocks).length + 1) 0 =
      blocks.flatMap (fun p => if discardNal (classify (p.headD 0)) then []
        else writeLen w p.length ++ p) := by
  intro blocks
  induction blocks with
  | nil =>
    intro _
    rw [convBackAux_step]
    simp [annexB]
  | cons p bs ih =>
    intro hb
    obtain ⟨hp0, hpclean⟩ := hb p (by simp)
    have hbs : ∀ q ∈ bs, q ≠ [] ∧ cleanPayload q := fun q hq => hb q (by simp [hq])
    have hplen : 0 < p.length := List.length_pos.mpr hp0
    have hann : annexB (p :: bs) = startCode ++ (p ++ annexB bs) := by
      simp [annexB]
    have hpost : annexB bs = [] ∨ ∃ q, annexB bs = startCode ++ q := by
      cases bs with
      | nil => exact Or.inl rfl
      | cons q bs' =>
        exact Or.inr ⟨q ++ annexB bs', by simp [annexB]⟩
    have hlen : (annexB (p :: bs)).length = 4 + (p.length + (annexB bs).length) := by
      rw [hann]
      simp [startCode]
      omega
    have hinner : findNext (p ++ annexB bs) 0 = p.length := by
      apply findNext_spec (p ++ annexB bs) p.length 0 p.length (by omega) (by omega)
      · intro j _ hjp
        exact noStart_within p (annexB bs) hpclean hpost j hjp
      · cases bs with
        | nil =>
          right
          simp [annexB]
        | cons q bs' =>
          left
          have hq0 : q ≠ [] := (hbs q (by simp)).1
          have hqlen : 0 < q.length := List.length_pos.mpr hq0
          have hsh : isStartAt (p ++ annexB (q :: bs')) (p.length + 0) =
              isStartAt (annexB (q :: bs')) 0 := isStartAt_shift ..
          rw [show p.length = p.length + 0 by omega, hsh]
          have hq : annexB (q :: bs') = startCode ++ (q ++ annexB bs') := by
            simp [annexB]
          unfold isStartAt
          rw [hq, List.drop_zero]
          have ht4 : (startCode ++ (q ++ annexB bs')).take 4 = startCode :=
        List.take_left' rfl
          rw [ht4]
          have hql : (startCode ++ (q ++ annexB bs')).length =
              4 + (q.length + (annexB bs').length) := by
            simp [startCode]
            omega
          rw [hql]
          simp [startCode]
          omega
    have hj : findNext (annexB (p :: bs)) 4 = 4 + p.length := by
      rw [hann]
      have hfs := findNext_shift startCode (p ++ annexB bs)
        (p ++ annexB bs).length 0 (by omega)
      rw [show (4 : Nat) = startCode.length + 0 by rfl, hfs, hinner]
      rfl
    rw [convBackAux_step]
    rw [if_pos (by omega)]
    have hsc : startCodeLen (annexB (p :: bs)) 0 = some 4 := by
      have hc : 0 + 3 < (annexB (p :: bs)).length ∧
          ((annexB (p :: bs)).drop 0).take 4 = [0, 0, 0, 1] := by
        constructor
        · omega
        · rw [List.drop_zero, hann]
          exact List.take_left' rfl
      unfold startCodeLen
      rw [if_pos hc]
    rw [hsc]
    dsimp only
    simp only [Nat.zero_add]
    rw [if_neg (by omega)]
    rw [hj]
    have hdrop4 : (annexB (p :: bs)).drop 4 = p ++ annexB bs := by
      rw [hann, show (4 : Nat) = startCode.length by rfl]
      exact List.drop_left ..
    rw [hdrop4]
    have harith : 4 + p.length - 4 = p.length := by omega
    rw [harith, List.take_left]
    rw [if_neg hp0]
    have hshift : convBackAux (annexB (p :: bs)) w ((annexB (p :: bs)).length + 1)
        (4 + p.length) = convBackAux (annexB bs) w ((annexB bs).length + 1) 0 := by
      have hassoc : annexB (p :: bs) = (startCode ++ p) ++ annexB bs := by
        rw [hann, List.append_assoc]
      rw [hassoc]
      have hlen2 : (startCode ++ p).length = 4 + p.length := by
        simp [startCode]
        omega
      have hs := convBackAux_shift w (startCode ++ p) (annexB bs)
        (annexB bs).length 0 (by omega)
      rw [hlen2] at hs
      rw [show 4 + p.length = 4 + p.length + 0 by omega]
      exact hs
    rw [hshift, ih hbs]
    simp only [List.flatMap_cons]
    by_cases hd : discardNal (classify (p.headD 0))
    · rw [if_pos hd, if_pos hd]
      simp
    · rw [if_neg hd, if_neg hd]
      simp [List.append_assoc]


theorem flatMap_eq_nil_of {α β : Type} (l : List α) (f : α → List β)
    (h : ∀ x ∈ l, f x = []) : l.flatMap f = [] := by
  induction l with
  | nil => rfl
  | cons x xs ih =>
    rw [List.flatMap_cons, h x (by simp), List.nil_append]
    exact ih fun y hy => h y (by simp [hy])

theorem discard_of_sps_head {b : Nat} (h : b &&& 31 = 7) :
    discardNal (classify b) = true := by
  unfold classify
  rw [h]
  rfl

theorem discard_of_pps_head {b : Nat} (h : b &&& 31 = 8) :
    discardNal (classify b) = true := by
  unfold classify
  rw [h]
  rfl

theorem insBlocks_mem (s : BitstreamConverter) (u : NalUnit) (p : List Nat)
    (hp : p ∈ insBlocks s u) : p ∈ s.sps ∨ p ∈ s.pps := by
  unfold insBlocks at hp
  obtain ⟨_, _, f3, f4, _⟩ := idrResync_fields s u
  split at hp
  · dsimp only at hp
    rw [f3, f4] at hp
    split at hp
    · rw [List.mem_append] at hp
      exact hp
    · split at hp
      · exact Or.inr hp
      · simp at hp
  · simp at hp

theorem emittedBlocks_mem : ∀ (us : List NalUnit) (s : BitstreamConverter)
    (p : List Nat), p ∈ emittedBlocks s us →
    p ∈ s.sps ∨ p ∈ s.pps ∨ ∃ u ∈ us, p = u.bytes := by
  intro us
  induction us with
  | nil =>
    intro s p hp
    simp [emittedBlocks] at hp
  | cons u us ih =>
    intro s p hp
    show _ ∨ _ ∨ ∃ x ∈ u :: us, p = x.bytes
    unfold emittedBlocks at hp
    rw [List.mem_append] at hp
    rcases hp with hp | hp
    · rcases insBlocks_mem s u p hp with h | h
      · exact Or.inl h
      · exact Or.inr (Or.inl h)
    · rw [List.mem_append] at hp
      rcases hp with hp | hp
      · simp only [List.mem_singleton] at hp
        exact Or.inr (Or.inr ⟨u, by simp, hp⟩)
      · obtain ⟨_, hsp, hpp⟩ := processUnit_preserve s u
        rcases ih (processUnit s u).1 p hp with h | h | ⟨x, hx, hpx⟩
        · rw [hsp] at h
          exact Or.inl h
        · rw [hpp] at h
          exact Or.inr (Or.inl h)
        · exact Or.inr (Or.inr ⟨x, by simp [hx], hpx⟩)

theorem emittedBlocks_flatMap (w : Nat) : ∀ (us : List NalUnit)
    (s : BitstreamConverter),
    (∀ p ∈ s.sps, discardNal (classify (p.headD 0)) = true) →
    (∀ p ∈ s.pps, discardNal (classify (p.headD 0)) = true) →
    (emittedBlocks s us).flatMap (fun p => if discardNal (classify (p.headD 0)) then []
      else writeLen w p.length ++ p) =
    us.flatMap (fun u => if discardNal (classify (u.bytes.headD 0)) then []
      else writeLen w u.bytes.length ++ u.bytes) := by
  intro us
  induction us with
  | nil => intro s _ _; rfl
  | cons u us ih =>
    intro s hsps hpps
    show (insBlocks s u ++ ([u.bytes] ++ emittedBlocks (processUnit s u).1 us)).flatMap _ = _
    rw [List.flatMap_append, List.flatMap_append]
    have hins : (insBlocks s u).flatMap (fun p =>
        if discardNal (classify (p.headD 0)) then []
        else writeLen w p.length ++ p) = [] := by
      apply flatMap_eq_nil_of
      intro p hp
      rcases insBlocks_mem s u p hp with h | h
      · rw [if_pos (hsps p h)]
      · rw [if_pos (hpps p h)]
    rw [hins, List.nil_append]
    obtain ⟨_, hsp, hpp⟩ := processUnit_preserve s u
    rw [ih (processUnit s u).1 (by rw [hsp]; exact hsps) (by rw [hpp]; exact hpps)]
    rw [List.flatMap_cons]
    simp [List.flatMap_cons]

theorem headD_take_ne {l : List Nat} {n : Nat} (hn : n ≠ 0) :
    (l.take n).headD 0 = l.headD 0 := by
  rw [List.headD_eq_head?_getD, List.headD_eq_head?_getD, head?_take hn]

theorem parseUnits_invariants (w : Nat) (h4 : w ≤ 4) : ∀ (n : Nat) (stream : List Nat),
    stream.length ≤ n → (∀ b ∈ stream, b < 256) →
    ∀ u ∈ parseUnits stream w, u.bytes ≠ [] ∧ u.bytes.length < 256 ^ w ∧
      u.nal_type = classify (u.bytes.headD 0) := by
  intro n
  induction n with
  | zero =>
    intro stream hn _ u hu
    have hnil : stream = [] := List.length_eq_zero.mp (by omega)
    subst hnil
    rw [parseUnits_eq, fromStream_nil] at hu
    simp at hu
  | succ n ih =>
    intro stream hn hb u hu
    rw [parseUnits_eq] at hu
    rcases hfs : NalUnit.from_stream stream w with _ | ⟨u0, rest⟩
    · rw [hfs] at hu
      simp at hu
    · have hrlt := fromStream_rest_lt hfs
      rw [hfs] at hu
      simp only [List.mem_cons] at hu
      have hchar := fromStream_char stream w h4
        (fun b hbs => hb b (List.take_subset w stream hbs))
      rw [hchar] at hfs
      by_cases hl1 : stream.length < w
      · rw [if_pos hl1] at hfs
        exact absurd hfs (by simp)
      · rw [if_neg hl1] at hfs
        by_cases hl2 : beVal (stream.take w) = 0 ∨
            stream.length - w < beVal (stream.take w)
        · rw [if_pos hl2] at hfs
          exact absurd hfs (by simp)
        · rw [if_neg hl2] at hfs
          simp only [Option.some.injEq, Prod.mk.injEq] at hfs
          obtain ⟨hu0, hrest⟩ := hfs
          push_neg at hl2
          obtain ⟨hne, hle⟩ := hl2
          rcases hu with hu | hu
          · subst hu
            rw [← hu0]
            refine ⟨?_, ?_, ?_⟩
            · intro hnil
              have := congrArg List.length hnil
              simp only [List.length_take, List.length_drop, List.length_nil] at this
              omega
            · dsimp only
              have hlt : ((stream.drop w).take (beVal (stream.take w))).length ≤
                  beVal (stream.take w) := by
                simp [List.length_take]
              have hbv : beVal (stream.take w) < 256 ^ w := by
                have hwl : (stream.take w).length = w := by
                  rw [List.length_take]
                  omega
                have := beVal_lt (stream.take w)
                  (fun b hbs => hb b (List.take_subset w stream hbs))
                rw [hwl] at this
                exact this
              omega
            · dsimp only
              rw [headD_take_ne hne]
          · exact ih rest (by omega)
              (fun b hbs => by
                rw [← hrest] at hbs
                exact hb b (List.drop_subset _ _ (List.drop_subset _ _ hbs)))
              u hu

theorem writeLen_eq_beBytes (w len : Nat) (h1 : 1 ≤ w) (h4 : w ≤ 4) :
    writeLen w len = beBytes w len := by
  interval_cases w <;> simp [writeLen, beBytes] <;> omega

theorem units_flatMap_filter (w : Nat) (h1 : 1 ≤ w) (h4 : w ≤ 4) :
    ∀ us : List NalUnit,
    (∀ u ∈ us, u.nal_type = classify (u.bytes.headD 0)) →
    us.flatMap (fun u => if discardNal (classify (u.bytes.headD 0)) then []
      else writeLen w u.bytes.length ++ u.bytes) =
    encodeUnits w (us.filter keepU) := by
  intro us
  induction us with
  | nil => intro _; rfl
  | cons u us ih =>
    intro hty
    rw [List.flatMap_cons]
    have ht := hty u (by simp)
    have hrec := ih fun x hx => hty x (by simp [hx])
    by_cases hd : discardNal u.nal_type = true
    · rw [if_pos (by rw [← ht]; exact hd)]
      have hf : (u :: us).filter keepU = us.filter keepU := by
        rw [List.filter_cons]
        simp [keepU, hd]
      rw [hf, List.nil_append]
      exact hrec
    · rw [if_neg (by rw [← ht]; exact hd)]
      have hf : (u :: us).filter keepU = u :: us.filter keepU := by
        rw [List.filter_cons]
        simp [keepU, Bool.of_not_eq_true hd]
      rw [hf]
      show _ = (u :: us.filter keepU).flatMap _
      rw [List.flatMap_cons, writeLen_eq_beBytes w u.bytes.length h1 h4, hrec]
      rfl

/-- **C2 (counterexample).**  Forward-then-inverse conversion is not the
identity on ordinary slice content: a slice payload containing the 3-byte
start-code pattern (`41 00 00 01 41`) is split in two by the inverse scan,
because the converter performs no emulation-prevention escaping. -/
theorem c2_round_trip_counterexample :
    ¬ convert_annexb_to_length_prefixed
        ((BitstreamConverter.convert_packet ⟨1, [], [], true, false, false⟩
          [5, 65, 0, 0, 1, 65]).2) 1 =
      encodeUnits 1 ((parseUnits [5, 65, 0, 0, 1, 65] 1).filter keepU) := by
  decide

/-- **C2 (amended).**  With the configured width in 1–4, u8-valued packet
bytes, stored parameter sets that are non-empty, classify as SPS resp. PPS
and contain no 3-byte start-code pattern, and no parsed unit payload
containing that pattern, the inverse of the forward conversion reconstructs
exactly the non-discarded units (kind not SPS/PPS/AUD/SEI) of the packet, in
order, with identical payload bytes behind canonical big-endian length
fields of the configured width. -/
theorem c2_round_trip_amended (s : BitstreamConverter) (packet : List Nat)
    (h1 : 1 ≤ s.length_size) (h4 : s.length_size ≤ 4)
    (hpb : ∀ b ∈ packet, b < 256)
    (hsps : ∀ p ∈ s.sps, p ≠ [] ∧ cleanPayload p ∧ p.headD 0 &&& 31 = 7)
    (hpps : ∀ p ∈ s.pps, p ≠ [] ∧ cleanPayload p ∧ p.headD 0 &&& 31 = 8)
    (hclean : ∀ u ∈ parseUnits packet s.length_size, cleanPayload u.bytes) :
    convert_annexb_to_length_prefixed (s.convert_packet packet).2 s.length_size =
      encodeUnits s.length_size ((parseUnits packet s.length_size).filter keepU) := by
  have hinv := parseUnits_invariants s.length_size h4 packet.length packet
    (le_refl _) hpb
  have hout : (s.convert_packet packet).2 =
      annexB (emittedBlocks s (parseUnits packet s.length_size)) := by
    rw [convert_packet_eq, processUnits_out]
  rw [hout]
  show convBackAux (annexB (emittedBlocks s (parseUnits packet s.length_size)))
      s.length_size
      ((annexB (emittedBlocks s (parseUnits packet s.length_size))).length + 1) 0 = _
  have hblocks : ∀ p ∈ emittedBlocks s (parseUnits packet s.length_size),
      p ≠ [] ∧ cleanPayload p := by
    intro p hp
    rcases emittedBlocks_mem (parseUnits packet s.length_size) s p hp
      with h | h | ⟨u, hu, hpu⟩
    · exact ⟨(hsps p h).1, (hsps p h).2.1⟩
    · exact ⟨(hpps p h).1, (hpps p h).2.1⟩
    · subst hpu
      exact ⟨(hinv u hu).1, hclean u hu⟩
  rw [convBack_annexB s.length_size (emittedBlocks s (parseUnits packet s.length_size))
    hblocks]
  rw [emittedBlocks_flatMap s.length_size (parseUnits packet s.length_size) s
    (fun p hp => discard_of_sps_head (hsps p hp).2.2)
    (fun p hp => discard_of_pps_head (hpps p hp).2.2)]
  exact units_flatMap_filter s.length_size h1 h4 (parseUnits packet s.length_size)
    (fun u hu => (hinv u hu).2.2)

/-- Witness for the amended C2 at a concrete state and two-unit packet. -/
theorem c2_round_trip_amended_witness :
    ((1 : Nat) ≤ 4 ∧
      (∀ b ∈ ([0, 0, 0, 2, 101, 136, 0, 0, 0, 3, 65, 7, 8] : List Nat), b < 256) ∧
      (∀ p ∈ ([[103, 1, 2]] : List (List Nat)),
        p ≠ [] ∧ cleanPayload p ∧ p.headD 0 &&& 31 = 7) ∧
      (∀ p ∈ ([[104, 3]] : List (List Nat)),
        p ≠ [] ∧ cleanPayload p ∧ p.headD 0 &&& 31 = 8) ∧
      (∀ u ∈ parseUnits [0, 0, 0, 2, 101, 136, 0, 0, 0, 3, 65, 7, 8] 4,
        cleanPayload u.bytes)) ∧
    convert_annexb_to_length_prefixed
        ((BitstreamConverter.convert_packet
          ⟨4, [[103, 1, 2]], [[104, 3]], true, false, false⟩
          [0, 0, 0, 2, 101, 136, 0, 0, 0, 3, 65, 7, 8]).2) 4 =
      encodeUnits 4
        ((parseUnits [0, 0, 0, 2, 101, 136, 0, 0, 0, 3, 65, 7, 8] 4).filter keepU) :=
  ⟨⟨by decide, by decide, by decide, by decide, by decide⟩,
    c2_round_trip_amended ⟨4, [[103, 1, 2]], [[104, 3]], true, false, false⟩
      [0, 0, 0, 2, 101, 136, 0, 0, 0, 3, 65, 7, 8]
      (by decide) (by decide) (by decide) (by decide) (by decide) (by decide)⟩
